import Mathlib

/-!
# Verification of the mustate convergence layer

A shallow embedding of the CRDT convergence layer of the `mustate` repository:

* the hybrid logical clock (`src/hlc.ts`): `createHLC`, `tick`, `receive`,
  `compare`, `asString`, `fromString`;
* the semantic patch layer (`src/patches.ts`): `enhancePatches` /
  `detectSemanticOperation`, `resolveConflicts` / `resolveCRDTConflicts`,
  `applyEnhancedPatches` / `applyCRDTOperation` / `applyStandardPatch` and the
  path utilities `getValueAtPath`, `setValueAtPath`, `removeValueAtPath`;
* the subscriber trie (`src/path-trie.ts`): `subscribe`,
  `getAffectedSubscribers` and its ancestor/descendant collectors.

JavaScript numbers are modelled as `Int` where the code manipulates integral
values; `parseInt` results are `Option Nat` with `none` playing the role of
`NaN`.  JavaScript string comparison is modelled by Lean's `String` order
(both orders are lexicographic on the character sequence).
-/

/-! ## Hybrid logical clock (`src/hlc.ts`) -/

/-- A hybrid logical clock value: physical timestamp, logical counter and
actor identifier (the fields of the `HLC` interface). -/
structure HLC where
  timestamp : Nat
  count : Nat
  actor : String
deriving DecidableEq

/-- `createHLC(actor, now)`. -/
def createHLC (actor : String) (now : Nat) : HLC :=
  { timestamp := now, count := 0, actor := actor }

/-- `tick(hlc, now)`: advance the clock.  If the wall clock moved forward,
jump to it and reset the counter, otherwise bump the counter. -/
def tick (hlc : HLC) (now : Nat) : HLC :=
  if now > hlc.timestamp then
    { timestamp := now, count := 0, actor := hlc.actor }
  else
    { timestamp := hlc.timestamp, count := hlc.count + 1, actor := hlc.actor }

/-- `receive(local, remote, now)`: merge with a remote clock. -/
def receive (l : HLC) (remote : HLC) (now : Nat) : HLC :=
  if now > l.timestamp ∧ now > remote.timestamp then
    { timestamp := now, count := 0, actor := l.actor }
  else if l.timestamp = remote.timestamp then
    { timestamp := l.timestamp, count := max l.count remote.count + 1, actor := l.actor }
  else if l.timestamp > remote.timestamp then
    { timestamp := l.timestamp, count := l.count + 1, actor := l.actor }
  else
    { timestamp := remote.timestamp, count := remote.count + 1, actor := l.actor }

namespace HLC

/-- `compare(a, b)`: negative iff `a < b`, `0` iff equal, positive iff
`a > b`; timestamp first, then count, then actor (string comparison). -/
def compare (a b : HLC) : Int :=
  if a.timestamp = b.timestamp then
    if a.count = b.count then
      if a.actor = b.actor then 0
      else if a.actor < b.actor then -1 else 1
    else (a.count : Int) - (b.count : Int)
  else (a.timestamp : Int) - (b.timestamp : Int)

end HLC

/-- The digit characters used by JavaScript `Number.prototype.toString(base)`
for bases up to 36: `0`-`9` then `a`-`z`. -/
def jsDigitChar (n : Nat) : Char :=
  if n < 10 then Char.ofNat (48 + n) else Char.ofNat (87 + n)

/-- Big-endian digit list of `n` in base `b`, with `[0]` for `n = 0`
(matching `toString`, which renders `0` as `"0"`). -/
def digitsBE (b n : Nat) : List Nat :=
  if n = 0 then [0] else (Nat.digits b n).reverse

/-- `n.toString(b)` for `2 ≤ b ≤ 36`. -/
def natToBase (b n : Nat) : String :=
  ⟨(digitsBE b n).map jsDigitChar⟩

/-- `s.padStart(w, c)`. -/
def padStart (s : String) (w : Nat) (c : Char) : String :=
  ⟨List.replicate (w - s.length) c ++ s.data⟩

/-- `asString(hlc)`: 10 base-36 digits of the timestamp, 4 base-16 digits of
the count, then the actor, all concatenated. -/
def asString (hlc : HLC) : String :=
  padStart (natToBase 36 hlc.timestamp) 10 '0' ++
    padStart (natToBase 16 hlc.count) 4 '0' ++ hlc.actor

/-- The numeric value of a character as a digit in base `b` (`0`-`9`,
`a`-`z`, `A`-`Z`), or `none` when the character is not a digit of that
base.  This is the per-character acceptance test of `parseInt`. -/
def charDigit (b : Nat) (c : Char) : Option Nat :=
  let v : Option Nat :=
    if 48 ≤ c.toNat ∧ c.toNat ≤ 57 then some (c.toNat - 48)
    else if 97 ≤ c.toNat ∧ c.toNat ≤ 122 then some (c.toNat - 87)
    else if 65 ≤ c.toNat ∧ c.toNat ≤ 90 then some (c.toNat - 55)
    else none
  match v with
  | some d => if d < b then some d else none
  | none => none

/-- `parseInt(s, b)` on a character list: the longest prefix of base-`b`
digits, `none` (JavaScript `NaN`) when there is no leading digit.  Sign
characters and the `0x` prefix are not modelled; no call site in the
embedded code feeds them. -/
def jsParseInt (b : Nat) (cs : List Char) : Option Nat :=
  let ds := cs.takeWhile fun c => (charDigit b c).isSome
  if ds.isEmpty then none
  else some (ds.foldl (fun acc c => acc * b + (charDigit b c).getD 0) 0)

/-- The raw result of `fromString`: each `parseInt` field may be `NaN`
(modelled as `none`). -/
structure HLCRaw where
  timestamp : Option Nat
  count : Option Nat
  actor : String
deriving DecidableEq

/-- The field slicing and parsing done by `fromString(encoded)`. -/
def decodeRaw (s : String) : HLCRaw :=
  { timestamp := jsParseInt 36 (s.data.take 10)
    count := jsParseInt 16 ((s.data.drop 10).take 4)
    actor := ⟨s.data.drop 14⟩ }

/-- The spec names a `MalformedTimestampError` for decoding; the decoder in
the source has no failure path, so this error is never produced. -/
inductive DecodeError where
  | malformedTimestamp
deriving DecidableEq

/-- `fromString(encoded)`.  The source function cannot throw: it slices the
string and calls `parseInt`, which yields `NaN` rather than raising.  The
`Except` codomain records that absence of a failure path: the result is
always `Except.ok`. -/
def fromString (s : String) : Except DecodeError HLCRaw :=
  .ok (decodeRaw s)

/-- A raw decode re-read as a well-formed clock, when neither field is
`NaN`. -/
def parsedHLC (r : HLCRaw) : Option HLC :=
  match r.timestamp, r.count with
  | some t, some c => some { timestamp := t, count := c, actor := r.actor }
  | _, _ => none

/-- `compare(fromString a, fromString b)` as used by the patch layer.  When
either string fails to parse, a `NaN` propagates through `compare` and every
call site treats the resulting `NaN` as `0` (ECMAScript `SortCompare`, and
the `> 0` tests in the reducers), so the model returns `0` directly in that
case. -/
def cmpHLCStr (a b : String) : Int :=
  match parsedHLC (decodeRaw a), parsedHLC (decodeRaw b) with
  | some x, some y => HLC.compare x y
  | _, _ => 0

/-! ## JSON value model and path utilities (`src/patches.ts`) -/

/-- A JSON-like value tree: the state shape manipulated by the patch layer.
Numeric values are modelled as integers (the code only ever adds and
subtracts patch magnitudes).  Objects are insertion-ordered key/value lists,
matching JavaScript object key order. -/
inductive JSONValue where
  | null
  | bool (b : Bool)
  | num (n : Int)
  | str (s : String)
  | arr (items : List JSONValue)
  | obj (fields : List (String × JSONValue))

/-- First binding of `key` in an object's field list. -/
def lookupField : List (String × JSONValue) → String → Option JSONValue
  | [], _ => none
  | (k, v) :: rest, key => if k = key then some v else lookupField rest key

/-- Assign `key` in a field list: update the existing binding in place, or
append a new binding at the end (JavaScript object key-order semantics). -/
def setField : List (String × JSONValue) → String → JSONValue → List (String × JSONValue)
  | [], key, v => [(key, v)]
  | (k, w) :: rest, key, v =>
    if k = key then (k, v) :: rest else (k, w) :: setField rest key v

/-- Remove the binding of `key` from a field list (`delete obj[key]`). -/
def eraseField : List (String × JSONValue) → String → List (String × JSONValue)
  | [], _ => []
  | (k, w) :: rest, key => if k = key then rest else (k, w) :: eraseField rest key

/-- The canonical decimal array-index reading of a key, when it has one
(JavaScript array indexing coerces the key through `ToString(ToUint32(k))`,
so only the canonical decimal form — digits, no leading zero — addresses an
element). -/
def canonicalIndex (key : String) : Option Nat :=
  match key.data with
  | [] => none
  | c :: cs =>
    if (c :: cs).all (fun ch => decide (48 ≤ ch.toNat ∧ ch.toNat ≤ 57)) ∧
        (c ≠ '0' ∨ cs = []) then
      some ((c :: cs).foldl (fun a ch => a * 10 + (ch.toNat - 48)) 0)
    else none

/-- `v[part]` for a single path segment: object property lookup, or array
indexing when the segment is the canonical decimal form of an index.
Property reads on primitives yield `undefined` (`none`). -/
def jsGetKey (v : JSONValue) (key : String) : Option JSONValue :=
  match v with
  | .obj fields => lookupField fields key
  | .arr items =>
    match canonicalIndex key with
    | some i => items.get? i
    | none => none
  | _ => none

/-- `v[key] = x` for a single segment.  Arrays extend with `null` filler for
out-of-range indices (JavaScript holes read back as missing); writes through
non-canonical array keys or onto primitives are dropped. -/
def jsSetKey (v : JSONValue) (key : String) (x : JSONValue) : JSONValue :=
  match v with
  | .obj fields => .obj (setField fields key x)
  | .arr items =>
    match canonicalIndex key with
    | some i =>
      if i < items.length then .arr (items.set i x)
      else .arr (items ++ List.replicate (i - items.length) .null ++ [x])
    | none => .arr items
  | other => other

/-- `delete current[lastPart]` / `current.splice(parseInt(lastPart), 1)`:
the final step of `removeValueAtPath`.  `parseInt` yielding `NaN` makes
`splice` start at `0`. -/
def jsDeleteKey (v : JSONValue) (key : String) : JSONValue :=
  match v with
  | .obj fields => .obj (eraseField fields key)
  | .arr items =>
    let i := (jsParseInt 10 key.data).getD 0
    .arr (items.take i ++ items.drop (i + 1))
  | other => other

/-- `String.prototype.split("/")` on the character list (structural
reimplementation of splitting on a single-character separator). -/
def splitOnSlash : List Char → List String
  | [] => [""]
  | c :: rest =>
    let r := splitOnSlash rest
    if c = '/' then "" :: r
    else
      match r with
      | [] => [⟨[c]⟩]
      | s :: ss => (⟨c :: s.data⟩) :: ss

/-- `path.split("/").filter(Boolean)`. -/
def splitPath (path : String) : List String :=
  (splitOnSlash path.data).filter (· ≠ "")

/-- The walking loop shared by the path readers: each step first checks
`current == null` (`null` or `undefined`) and stops with `undefined`. -/
def getAtParts : Option JSONValue → List String → Option JSONValue
  | cur, [] => cur
  | cur, p :: ps =>
    match cur with
    | none => none
    | some .null => none
    | some v => getAtParts (jsGetKey v p) ps

/-- `getValueAtPath(obj, path)`. -/
def getValueAtPath (v : JSONValue) (path : String) : Option JSONValue :=
  if path = "" ∨ path = "/" then some v
  else getAtParts (some v) (splitPath path)

/-- Structured errors raised by the patch applier: the root-addressing
errors of `setValueAtPath` / `removeValueAtPath` (the spec's
`RootReplacementError`), and the TypeError a strict-mode property write on a
primitive would raise while descending (never reached by well-formed
state). -/
inductive PatchError where
  | rootReplacement (msg : String)
  | typeError
deriving DecidableEq

/-- `target[key] = x` as a statement: fails on primitives (strict-mode
assignment to a non-object), succeeds on containers. -/
def assignKey (v : JSONValue) (key : String) (x : JSONValue) : Except PatchError JSONValue :=
  match v with
  | .obj _ | .arr _ => .ok (jsSetKey v key x)
  | _ => .error .typeError

/-- The descending write loop of `setValueAtPath`: missing or `null`
intermediates are replaced by a fresh empty object (`current[part] = {}`),
then the leaf assignment runs.  An empty segment list indexes with the
stringified `undefined` key, as the source would. -/
def setParts (v : JSONValue) : List String → JSONValue → Except PatchError JSONValue
  | [], x => assignKey v "undefined" x
  | [last], x => assignKey v last x
  | p :: q :: rest, x =>
    match jsGetKey v p with
    | none | some .null =>
      -- assign a fresh empty object at the segment, then descend into it
      match assignKey v p (.obj []) with
      | .error e => .error e
      | .ok v' =>
        match setParts (.obj []) (q :: rest) x with
        | .error e => .error e
        | .ok inner => assignKey v' p inner
    | some c =>
      match setParts c (q :: rest) x with
      | .error e => .error e
      | .ok inner => assignKey v p inner

/-- `setValueAtPath(obj, path, value)`: throws on the whole-state root,
otherwise walks the segments creating missing parents. -/
def setValueAtPath (v : JSONValue) (path : String) (x : JSONValue) :
    Except PatchError JSONValue :=
  if path = "" ∨ path = "/" then .error (.rootReplacement "Cannot replace root object")
  else setParts v (splitPath path) x

/-- The descending loop of `removeValueAtPath`: a missing or `null`
intermediate makes the whole removal a silent no-op. -/
def removeParts (v : JSONValue) : List String → JSONValue
  | [] => jsDeleteKey v "undefined"
  | [last] => jsDeleteKey v last
  | p :: q :: rest =>
    match jsGetKey v p with
    | none | some .null => v
    | some c => jsSetKey v p (removeParts c (q :: rest))

/-- `removeValueAtPath(obj, path)`: throws on the whole-state root. -/
def removeValueAtPath (v : JSONValue) (path : String) : Except PatchError JSONValue :=
  if path = "" ∨ path = "/" then .error (.rootReplacement "Cannot remove root object")
  else .ok (removeParts v (splitPath path))

/-- `isPlainObject(value)`. -/
def isPlainObject : JSONValue → Bool
  | .obj _ => true
  | _ => false

/-! ## Enhanced patches: operation types -/

/-- The `op` tag of a `CRDTOperation`. -/
inductive CRDTOp where
  | increment
  | decrement
  | append
  | merge
  | replace
deriving DecidableEq

/-- A semantic (CRDT) operation: `{op, path, value, hlc, type: "crdt"}`.
The `hlc` field is the encoded timestamp string, as on the wire. -/
structure CRDTOperation where
  op : CRDTOp
  path : String
  value : JSONValue
  hlc : String

/-- The `op` tag of a `StandardPatch`. -/
inductive StdOp where
  | add
  | replace
  | remove
deriving DecidableEq

/-- A plain structural patch: `{op, path, value?}`; `none` is an absent
(`undefined`) value. -/
structure StandardPatch where
  op : StdOp
  path : String
  value : Option JSONValue

/-- `EnhancedPatch = CRDTOperation | StandardPatch`, discriminated in the
source by the presence of the `type: "crdt"` tag. -/
inductive EnhancedPatch where
  | crdt (o : CRDTOperation)
  | std (p : StandardPatch)

/-- The path of either kind of patch. -/
def EnhancedPatch.path : EnhancedPatch → String
  | .crdt o => o.path
  | .std p => p.path

/-- `"type" in p && p.type === "crdt"`. -/
def EnhancedPatch.asCRDT : EnhancedPatch → Option CRDTOperation
  | .crdt o => some o
  | .std _ => none

/-- `!("type" in p)`. -/
def EnhancedPatch.asStd : EnhancedPatch → Option StandardPatch
  | .crdt _ => none
  | .std p => some p

/-! ## Semantic operation detector (`detectSemanticOperation`) -/

/-- Structural equality on optional values, standing in for the `!==`
comparisons of the key-diff check (JavaScript compares primitives by value;
an absent key reads as `undefined` = `none`). -/
def beqOptValue : Option JSONValue → Option JSONValue → Bool
  | none, none => true
  | some a, some b => beqValue a b
  | _, _ => false
where
  /-- Structural equality on values. -/
  beqValue : JSONValue → JSONValue → Bool
    | .null, .null => true
    | .bool a, .bool b => a == b
    | .num a, .num b => a == b
    | .str a, .str b => a == b
    | .arr a, .arr b => beqList a b
    | .obj a, .obj b => beqFields a b
    | _, _ => false
  /-- Elementwise equality on arrays. -/
  beqList : List JSONValue → List JSONValue → Bool
    | [], [] => true
    | a :: as', b :: bs' => beqValue a b && beqList as' bs'
    | _, _ => false
  /-- Pairwise equality on field lists. -/
  beqFields : List (String × JSONValue) → List (String × JSONValue) → Bool
    | [], [] => true
    | (k, a) :: as', (l, b) :: bs' => k == l && beqValue a b && beqFields as' bs'
    | _, _ => false

/-- The merge-detection test on two plain objects: new keys were added or an
existing key's value changed. -/
def hasNewOrChangedKeys (oldFields newFields : List (String × JSONValue)) : Bool :=
  let oldKeys := oldFields.map Prod.fst
  let newKeys := newFields.map Prod.fst
  newKeys.any (fun key => !oldKeys.contains key) ||
    oldKeys.any (fun key =>
      !beqOptValue (lookupField oldFields key) (lookupField newFields key))

/-- `detectSemanticOperation(patch, prevState, nextState)` with the shared
clock threaded explicitly and the `Date.now()` sample passed as `now`
(`nextState` is unused by the source, which names it `_nextState`).
Returns the classified patch together with the updated clock. -/
def detectSemanticOperation (patch : StandardPatch) (prevState : JSONValue)
    (clock : HLC) (now : Nat) : EnhancedPatch × HLC :=
  match patch.op with
  | .replace =>
    let pathValue := getValueAtPath prevState patch.path
    match pathValue, patch.value with
    | some (.num v), some (.num v') =>
      let diff := v' - v
      if diff ≠ 0 then
        let clock' := tick clock now
        (.crdt { op := if diff > 0 then .increment else .decrement,
                 path := patch.path, value := .num |diff|,
                 hlc := asString clock' }, clock')
      else (.std patch, clock)
    | some (.obj oldFields), some (.obj newFields) =>
      if hasNewOrChangedKeys oldFields newFields then
        let clock' := tick clock now
        (.crdt { op := .merge, path := patch.path, value := .obj newFields,
                 hlc := asString clock' }, clock')
      else (.std patch, clock)
    | _, _ => (.std patch, clock)
  | .add =>
    let pathParts := splitPath patch.path
    let parentPath := "/" ++ String.intercalate "/" pathParts.dropLast
    match getValueAtPath prevState parentPath, patch.value with
    | some (.arr items), some value =>
      match pathParts.getLast? with
      | some index =>
        if index = "-" ∨ jsParseInt 10 index.data = some items.length then
          let clock' := tick clock now
          (.crdt { op := .append, path := parentPath, value := value,
                   hlc := asString clock' }, clock')
        else (.std patch, clock)
      | none => (.std patch, clock)
    | _, _ => (.std patch, clock)
  | .remove => (.std patch, clock)

/-- `enhancePatches(patches, prevState, nextState)`: classify each patch in
order, threading the clock (the source mutates a module-level clock; each
call samples `Date.now()`, modelled here as the single instant `now`). -/
def enhancePatches (patches : List StandardPatch) (prevState : JSONValue)
    (clock : HLC) (now : Nat) : List EnhancedPatch × HLC :=
  patches.foldl
    (fun (acc : List EnhancedPatch × HLC) patch =>
      let (enhanced, clock') := detectSemanticOperation patch prevState acc.2 now
      (acc.1 ++ [enhanced], clock'))
    ([], clock)

/-! ## Conflict resolver (`resolveConflicts`, `resolveCRDTConflicts`) -/

/-- The `reduce` computing the latest operation by `compare` over decoded
`hlc` strings: fold the tail starting from the first element, keeping
`current` when `compare(current, latest) > 0`. -/
def latestByHLC (h : CRDTOperation) (t : List CRDTOperation) : CRDTOperation :=
  t.foldl (fun latest current =>
    if cmpHLCStr current.hlc latest.hlc > 0 then current else latest) h

/-- The comparator-as-Boolean used to model the stable `Array.prototype.sort`
over `compare` of decoded timestamps. -/
def hlcLeB (a b : CRDTOperation) : Bool :=
  cmpHLCStr a.hlc b.hlc ≤ 0

/-- `resolveCRDTConflicts(operations)`: sum all increments into one (latest
timestamp), likewise decrements, keep every append sorted by timestamp, and
keep only the latest of the remaining kinds. -/
def resolveCRDTConflicts (operations : List CRDTOperation) : List CRDTOperation :=
  let increments := operations.filter fun o => o.op == .increment
  let decrements := operations.filter fun o => o.op == .decrement
  let appends := operations.filter fun o => o.op == .append
  let others := operations.filter fun o =>
    !(o.op == .increment || o.op == .decrement || o.op == .append)
  let incPart : List CRDTOperation :=
    match increments with
    | [] => []
    | h :: t =>
      let total := (h :: t).foldl
        (fun sum o => match o.value with | .num n => sum + n | _ => sum) (0 : Int)
      if total ≠ 0 then
        [{ h with value := .num total, hlc := (latestByHLC h t).hlc }]
      else []
  let decPart : List CRDTOperation :=
    match decrements with
    | [] => []
    | h :: t =>
      let total := (h :: t).foldl
        (fun sum o => match o.value with | .num n => sum + n | _ => sum) (0 : Int)
      if total ≠ 0 then
        [{ h with value := .num total, hlc := (latestByHLC h t).hlc }]
      else []
  let appendPart := appends.mergeSort hlcLeB
  let otherPart : List CRDTOperation :=
    match others with
    | [] => []
    | h :: t => [latestByHLC h t]
  incPart ++ decPart ++ appendPart ++ otherPart

/-- The key list of the path-grouping `Map`, in insertion (first
occurrence) order. -/
def pathOrder (patches : List EnhancedPatch) : List String :=
  patches.foldl (fun acc p => if p.path ∈ acc then acc else acc ++ [p.path]) []

/-- `resolveConflicts(patches)`: group by path; singleton groups pass
through; otherwise CRDT operations are resolved per kind and only the last
plain structural patch survives. -/
def resolveConflicts (patches : List EnhancedPatch) : List EnhancedPatch :=
  (pathOrder patches).flatMap fun path =>
    let group := patches.filter fun p => p.path == path
    if group.length == 1 then group
    else
      let crdtOps := group.filterMap EnhancedPatch.asCRDT
      let standardOps := group.filterMap EnhancedPatch.asStd
      (resolveCRDTConflicts crdtOps).map .crdt ++
        (match standardOps.getLast? with
         | some s => [.std s]
         | none => [])

/-! ## Patch applier (`applyEnhancedPatches`) -/

/-- Rewrite the value reached by the read loop at `parts`, mirroring an
in-place mutation of the container found there (used for `append`'s
`current.push` and `merge`'s `Object.assign`, which mutate the value read by
`getValueAtPath`). -/
def modifyAtParts (v : JSONValue) : List String → (JSONValue → JSONValue) → JSONValue
  | [], f => f v
  | p :: ps, f =>
    match jsGetKey v p with
    | none => v
    | some c => jsSetKey v p (modifyAtParts c ps f)

/-- `Object.assign(target, source)`: copy the source's bindings onto the
target, in source order. -/
def assignFields (target source : List (String × JSONValue)) :
    List (String × JSONValue) :=
  source.foldl (fun t kv => setField t kv.1 kv.2) target

/-- `applyCRDTOperation(draft, operation)`. -/
def applyCRDTOperation (v : JSONValue) (operation : CRDTOperation) :
    Except PatchError JSONValue :=
  let current := getValueAtPath v operation.path
  match operation.op with
  | .increment =>
    match current, operation.value with
    | some (.num n), .num m => setValueAtPath v operation.path (.num (n + m))
    | _, _ => .ok v
  | .decrement =>
    match current, operation.value with
    | some (.num n), .num m => setValueAtPath v operation.path (.num (n - m))
    | _, _ => .ok v
  | .append =>
    match current with
    | some (.arr _) =>
      .ok (modifyAtParts v (splitPath operation.path) fun c =>
        match c with
        | .arr items => .arr (items ++ [operation.value])
        | other => other)
    | _ => .ok v
  | .merge =>
    match current, operation.value with
    | some (.obj _), .obj sourceFields =>
      .ok (modifyAtParts v (splitPath operation.path) fun c =>
        match c with
        | .obj fields => .obj (assignFields fields sourceFields)
        | other => other)
    | _, _ => setValueAtPath v operation.path operation.value
  | .replace => setValueAtPath v operation.path operation.value

/-- `applyStandardPatch(draft, patch)`: `add`/`replace` write the value when
one is present (an `undefined` value is silently skipped); `remove` deletes
at the path. -/
def applyStandardPatch (v : JSONValue) (patch : StandardPatch) :
    Except PatchError JSONValue :=
  match patch.op with
  | .replace =>
    match patch.value with
    | some x => setValueAtPath v patch.path x
    | none => .ok v
  | .add =>
    match patch.value with
    | some x => setValueAtPath v patch.path x
    | none => .ok v
  | .remove => removeValueAtPath v patch.path

/-- The sort comparator of `applyEnhancedPatches`: `compare` of decoded
timestamps when both patches carry an `hlc`, `0` otherwise. -/
def patchCmp (a b : EnhancedPatch) : Int :=
  match a, b with
  | .crdt x, .crdt y => cmpHLCStr x.hlc y.hlc
  | _, _ => 0

/-- `applyEnhancedPatches(state, patches)`: stable-sort by the comparator,
then fold the applications over the draft; a thrown error aborts the whole
application. -/
def applyEnhancedPatches (state : JSONValue) (patches : List EnhancedPatch) :
    Except PatchError JSONValue :=
  let sortedPatches := patches.mergeSort fun a b => patchCmp a b ≤ 0
  sortedPatches.foldlM
    (fun st p =>
      match p with
      | .crdt o => applyCRDTOperation st o
      | .std sp => applyStandardPatch st sp)
    state

/-! ## Path trie (`src/path-trie.ts`) -/

/-- A path segment: an object key or an array index (`PathSegment =
string | number`; a `Map` keeps `1` and `"1"` distinct). -/
inductive Seg where
  | str (s : String)
  | idx (n : Nat)
deriving DecidableEq

/-- A trie node: registered subscribers (a `Set`, modelled as an
insertion-ordered duplicate-free list of subscriber handles) and children
keyed by segment (a `Map`, modelled as an insertion-ordered association
list).  Subscriber handles are modelled as natural numbers standing for the
function references. -/
inductive Trie where
  | node (subs : List Nat) (children : List (Seg × Trie))

/-- The subscriber set of a node. -/
def Trie.subsOf : Trie → List Nat
  | .node subs _ => subs

/-- The children map of a node. -/
def Trie.childrenOf : Trie → List (Seg × Trie)
  | .node _ children => children

/-- `Set.add`: append if not already present. -/
def setAdd (l : List Nat) (x : Nat) : List Nat :=
  if x ∈ l then l else l ++ [x]

/-- Add every element of `xs` to the set `acc`. -/
def addAll (acc xs : List Nat) : List Nat :=
  xs.foldl setAdd acc

/-- `Map.get` on the children map. -/
def lookupChild : List (Seg × Trie) → Seg → Option Trie
  | [], _ => none
  | (k, c) :: rest, seg => if k = seg then some c else lookupChild rest seg

/-- `Map.set` on an existing key: replace the child in place. -/
def updateChild : List (Seg × Trie) → Seg → Trie → List (Seg × Trie)
  | [], seg, c => [(seg, c)]
  | (k, old) :: rest, seg, c =>
    if k = seg then (k, c) :: rest else (k, old) :: updateChild rest seg c

/-- `subscribe(path, subscriber)` combined with `ensureNode`: walk the path
creating missing nodes, and add the subscriber to the final node's set. -/
def subscribeT : Trie → List Seg → Nat → Trie
  | .node subs children, [], s => .node (setAdd subs s) children
  | .node subs children, seg :: rest, s =>
    match lookupChild children seg with
    | some c => .node subs (updateChild children seg (subscribeT c rest s))
    | none => .node subs (children ++ [(seg, subscribeT (.node [] []) rest s)])

/-- `findNode(path)`. -/
def findNodeT : Trie → List Seg → Option Trie
  | t, [] => some t
  | t, seg :: rest =>
    match lookupChild t.childrenOf seg with
    | some c => findNodeT c rest
    | none => none

/-- The walking loop of `collectAncestorSubscribers` (after the root's
subscribers were added): add each found child's subscribers, stopping at the
first missing segment. -/
def ancestorsGo : Trie → List Seg → List Nat → List Nat
  | _, [], acc => acc
  | t, seg :: rest, acc =>
    match lookupChild t.childrenOf seg with
    | none => acc
    | some c => ancestorsGo c rest (addAll acc c.subsOf)

/-- `collectAncestorSubscribers(path, result)`. -/
def collectAncestors (t : Trie) (path : List Seg) (acc : List Nat) : List Nat :=
  ancestorsGo t path (addAll acc t.subsOf)

mutual
/-- `collectDescendantSubscribers(node, result)`: for each child add its
subscribers, then recurse into it. -/
def collectDesc : Trie → List Nat → List Nat
  | .node _ children, acc => collectDescChildren children acc

/-- The loop body of `collectDescendantSubscribers` over the children map. -/
def collectDescChildren : List (Seg × Trie) → List Nat → List Nat
  | [], acc => acc
  | (_, c) :: rest, acc => collectDescChildren rest (collectDesc c (addAll acc c.subsOf))
end

/-- `getAffectedSubscribers(path, operation)`: ancestors (root included),
the exact node, and — for `remove` — every descendant of the exact node. -/
def getAffectedSubscribers (t : Trie) (path : List Seg) (operation : StdOp) :
    List Nat :=
  let affected := collectAncestors t path []
  match findNodeT t path with
  | some exactNode =>
    let affected := addAll affected exactNode.subsOf
    if operation = .remove then collectDesc exactNode affected else affected
  | none => affected

/-! ## Claim C5: `tick` strictly advances the clock -/

/-- C5: for every clock `c` and every `now`, the advanced clock is strictly
greater under `compare`: `compare c (tick c now) < 0`, whether `now` is
ahead of, equal to, or behind `c.timestamp`. -/
theorem tick_strictly_increases (c : HLC) (now : Nat) :
    HLC.compare c (tick c now) < 0 := by
  by_cases h : now > c.timestamp
  · have hne : c.timestamp ≠ now := by omega
    simp [tick, HLC.compare, h, hne]
  · have hne : c.count ≠ c.count + 1 := by omega
    simp [tick, HLC.compare, h, hne]

/-! ## Claim C8: root-addressed structural patches fail -/

/-- C8: a plain structural patch (add, replace or remove, with a value
present for add/replace) whose path addresses the whole-state root fails
with the root-replacement error instead of modifying the state. -/
theorem applyStandardPatch_root_error (s : JSONValue) (p : StandardPatch)
    (hroot : p.path = "" ∨ p.path = "/")
    (hval : p.op = .remove ∨ p.value.isSome) :
    applyStandardPatch s p =
      .error (.rootReplacement
        (if p.op = .remove then "Cannot remove root object"
         else "Cannot replace root object")) := by
  obtain ⟨op, path, value⟩ := p
  cases op with
  | remove =>
    simp only [applyStandardPatch, removeValueAtPath]
    rw [if_pos hroot]
    rfl
  | add =>
    rcases hval with h | h
    · exact absurd h (by simp)
    · obtain ⟨x, rfl⟩ := Option.isSome_iff_exists.mp h
      simp only [applyStandardPatch, setValueAtPath]
      rw [if_pos hroot]
      rfl
  | replace =>
    rcases hval with h | h
    · exact absurd h (by simp)
    · obtain ⟨x, rfl⟩ := Option.isSome_iff_exists.mp h
      simp only [applyStandardPatch, setValueAtPath]
      rw [if_pos hroot]
      rfl

/-- Witness for C8 at a concrete input: replacing the root of `{}` with `1`
fails with the root-replacement error. -/
theorem applyStandardPatch_root_error_witness :
    applyStandardPatch (.obj []) ⟨.replace, "/", some (.num 1)⟩ =
      .error (.rootReplacement "Cannot replace root object") :=
  applyStandardPatch_root_error (.obj []) ⟨.replace, "/", some (.num 1)⟩
    (Or.inr rfl) (Or.inr rfl)

/-! ## Claim C9: decoding a short string -/

/-- C9 counterexample: the empty string is shorter than the minimum encoded
length (15), yet decoding does not raise any error — `fromString` has no
failure path and returns a value whose numeric fields are `NaN`. -/
theorem fromString_short_no_error :
    ("" : String).length < 15 ∧
      fromString "" = .ok { timestamp := none, count := none, actor := "" } :=
  ⟨by decide, rfl⟩

/-- C9 amended: decoding never raises; for every input shorter than 15
characters it returns (without error) a raw clock whose actor field is the
empty remainder of the string. -/
theorem fromString_short_ok (s : String) (h : s.length < 15) :
    ∃ r, fromString s = .ok r ∧ r.actor = "" := by
  refine ⟨decodeRaw s, rfl, ?_⟩
  show (⟨s.data.drop 14⟩ : String) = ""
  have hd : s.data.drop 14 = [] := by
    apply List.drop_eq_nil_of_le
    have : s.length = s.data.length := rfl
    omega
  rw [hd]

/-- Witness for the amended C9 at the concrete input `""`. -/
theorem fromString_short_ok_witness :
    ∃ r, fromString "" = .ok r ∧ r.actor = "" :=
  fromString_short_ok "" (by decide)

/-! ## Claim C4: numeric replaces become increments/decrements -/

/-- C4: a `replace` patch whose target held the number `v` and whose new
value is the number `v'` with `v' ≠ v` is classified as an `increment`
(when `v' > v`) or `decrement` (when `v' < v`) of magnitude `|v' - v|`,
stamped with the freshly advanced clock. -/
theorem detect_numeric_replace (p : StandardPatch) (prev : JSONValue)
    (clock : HLC) (now : Nat) (v v' : Int)
    (hop : p.op = .replace)
    (hprev : getValueAtPath prev p.path = some (.num v))
    (hval : p.value = some (.num v'))
    (hne : v' ≠ v) :
    detectSemanticOperation p prev clock now =
      (.crdt { op := if v' > v then .increment else .decrement,
               path := p.path, value := .num |v' - v|,
               hlc := asString (tick clock now) }, tick clock now) := by
  unfold detectSemanticOperation
  rw [hop, hprev, hval]
  simp only [sub_ne_zero]
  rw [if_pos hne]
  have hiff : (if v' - v > 0 then CRDTOp.increment else CRDTOp.decrement) =
      (if v' > v then CRDTOp.increment else CRDTOp.decrement) := by
    by_cases hc : v' > v
    · rw [if_pos (by omega), if_pos hc]
    · rw [if_neg (by omega), if_neg hc]
  rw [hiff]

/-- Witness for C4: state `{counter: 10}` with `replace /counter 13` is
classified as an increment of magnitude 3. -/
theorem detect_numeric_replace_witness :
    detectSemanticOperation ⟨.replace, "/counter", some (.num 13)⟩
        (.obj [("counter", .num 10)]) (createHLC "n" 0) 1 =
      (.crdt { op := .increment, path := "/counter", value := .num 3,
               hlc := asString (tick (createHLC "n" 0) 1) },
        tick (createHLC "n" 0) 1) :=
  detect_numeric_replace _ _ _ _ 10 13 rfl rfl rfl (by decide)

/-! ## Claim C1: two-increment convergence -/

unseal List.merge List.mergeSort in
/-- C1: from `{counter: 0}`, one increment of 5 and one of 3 on `/counter`
(each with its own timestamp string), resolved and applied, give
`{counter: 8}` — in either concatenation order of the batch. -/
theorem increments_converge (h1 h2 : String) :
    applyEnhancedPatches (.obj [("counter", .num 0)])
        (resolveConflicts
          [.crdt { op := .increment, path := "/counter", value := .num 5, hlc := h1 },
           .crdt { op := .increment, path := "/counter", value := .num 3, hlc := h2 }]) =
      .ok (.obj [("counter", .num 8)]) ∧
    applyEnhancedPatches (.obj [("counter", .num 0)])
        (resolveConflicts
          [.crdt { op := .increment, path := "/counter", value := .num 3, hlc := h2 },
           .crdt { op := .increment, path := "/counter", value := .num 5, hlc := h1 }]) =
      .ok (.obj [("counter", .num 8)]) :=
  ⟨rfl, rfl⟩

/-! ## Claim C10: missing intermediate segments are created -/

/-- A path step that `setValueAtPath` can descend through while creating
missing parents: absent, `null`, or a plain object. -/
def okStep (o : Option JSONValue) : Prop :=
  o = none ∨ o = some .null ∨ ∃ fs, o = some (.obj fs)

theorem getAtParts_none : ∀ ps : List String, getAtParts none ps = none
  | [] => rfl
  | _ :: _ => rfl

theorem getAtParts_obj_cons (f : List (String × JSONValue)) (p : String)
    (ps : List String) :
    getAtParts (some (.obj f)) (p :: ps) = getAtParts (lookupField f p) ps := rfl

theorem lookupField_setField (fields : List (String × JSONValue)) (k : String)
    (v : JSONValue) : lookupField (setField fields k v) k = some v := by
  induction fields with
  | nil => simp [setField, lookupField]
  | cons kv rest ih =>
    obtain ⟨k', w⟩ := kv
    by_cases h : k' = k
    · simp [setField, lookupField, h]
    · simp [setField, lookupField, h, ih]

theorem setParts_creates : ∀ (parts : List String)
    (fields : List (String × JSONValue)) (x : JSONValue),
    parts ≠ [] →
    (∀ q r, parts = q ++ r → q ≠ [] → r ≠ [] →
      okStep (getAtParts (some (.obj fields)) q)) →
    ∃ fields', setParts (.obj fields) parts x = .ok (.obj fields') ∧
      getAtParts (some (.obj fields')) parts = some x ∧
      (∀ q r, parts = q ++ r → q ≠ [] → r ≠ [] →
        ∃ fs, getAtParts (some (.obj fields')) q = some (.obj fs))
  | [], _, _, hne, _ => absurd rfl hne
  | [last], fields, x, _, _ => by
    refine ⟨setField fields last x, rfl, ?_, ?_⟩
    · rw [getAtParts_obj_cons, lookupField_setField]
      exact rfl
    · rintro q r hqr hq hr
      rcases q with _ | ⟨a, q'⟩
      · exact absurd rfl hq
      · rcases r with _ | ⟨b, r'⟩
        · exact absurd rfl hr
        · exfalso
          have := congrArg List.length hqr
          simp at this
  | p :: q0 :: rest, fields, x, _, hpre => by
    have hstep := hpre [p] (q0 :: rest) rfl (by simp) (by simp)
    rw [getAtParts_obj_cons] at hstep
    have hgetnil : ∀ o : Option JSONValue, getAtParts o [] = o := fun _ => rfl
    rw [hgetnil] at hstep
    have main : ∀ (cf base : List (String × JSONValue)),
        (∀ q r, (q0 :: rest : List String) = q ++ r → q ≠ [] → r ≠ [] →
          okStep (getAtParts (some (.obj cf)) q)) →
        (∀ fields₁, setParts (.obj cf) (q0 :: rest) x = .ok (.obj fields₁) →
          setParts (.obj fields) (p :: q0 :: rest) x =
            .ok (.obj (setField base p (.obj fields₁)))) →
        ∃ fields', setParts (.obj fields) (p :: q0 :: rest) x = .ok (.obj fields') ∧
          getAtParts (some (.obj fields')) (p :: q0 :: rest) = some x ∧
          (∀ q r, (p :: q0 :: rest : List String) = q ++ r → q ≠ [] → r ≠ [] →
            ∃ fs, getAtParts (some (.obj fields')) q = some (.obj fs)) := by
      intro cf base hcf hshape
      obtain ⟨fields₁, hrec, hrget, hrpre⟩ :=
        setParts_creates (q0 :: rest) cf x (by simp) hcf
      refine ⟨setField base p (.obj fields₁), hshape fields₁ hrec, ?_, ?_⟩
      · rw [getAtParts_obj_cons, lookupField_setField]
        exact hrget
      · rintro q r hqr hq hr
        rcases q with _ | ⟨a, q'⟩
        · exact absurd rfl hq
        · rw [List.cons_append] at hqr
          injection hqr with h1 h2
          subst h1
          rcases q' with _ | ⟨b, q''⟩
          · refine ⟨fields₁, ?_⟩
            rw [getAtParts_obj_cons, lookupField_setField]
            exact hgetnil _
          · obtain ⟨fs, hfs⟩ := hrpre (b :: q'') r h2 (by simp) hr
            exact ⟨fs, by rw [getAtParts_obj_cons, lookupField_setField]; exact hfs⟩
    rcases hstep with hnone | hnull | ⟨cfields, hobj⟩
    · have hj : jsGetKey (JSONValue.obj fields) p = none := hnone
      refine main [] (setField fields p (.obj [])) ?_ ?_
      · intro q r hqr hq hr
        rcases q with _ | ⟨a, q'⟩
        · exact absurd rfl hq
        · left
          rw [getAtParts_obj_cons]
          show getAtParts none q' = none
          exact getAtParts_none q'
      · intro fields₁ hrec
        simp only [setParts, hj, assignKey, jsSetKey, hrec]
    · have hj : jsGetKey (JSONValue.obj fields) p = some .null := hnull
      refine main [] (setField fields p (.obj [])) ?_ ?_
      · intro q r hqr hq hr
        rcases q with _ | ⟨a, q'⟩
        · exact absurd rfl hq
        · left
          rw [getAtParts_obj_cons]
          show getAtParts none q' = none
          exact getAtParts_none q'
      · intro fields₁ hrec
        simp only [setParts, hj, assignKey, jsSetKey, hrec]
    · have hj : jsGetKey (JSONValue.obj fields) p = some (.obj cfields) := hobj
      refine main cfields fields ?_ ?_
      · intro q r hqr hq hr
        have hx := hpre (p :: q) r (by rw [hqr, List.cons_append]) (by simp) hr
        rw [getAtParts_obj_cons, hobj] at hx
        exact hx
      · intro fields₁ hrec
        simp only [setParts, hj, hrec, assignKey, jsSetKey]

theorem splitPath_empty : splitPath "" = [] := rfl

theorem splitPath_root : splitPath "/" = [] := rfl

/-- C10: when the applier writes a value at a path (standard add/replace
patch, or a CRDT replace operation) whose intermediate segments are missing
or `null` in the current state (or plain objects it can descend through), it
silently creates an empty object for each missing intermediate and writes
the leaf: no error is raised and the write is not skipped — reading the path
back yields the written value and every intermediate now holds an object. -/
theorem write_creates_missing_parents (fields : List (String × JSONValue))
    (path : String) (x : JSONValue)
    (hne : splitPath path ≠ [])
    (hpre : ∀ q r, splitPath path = q ++ r → q ≠ [] → r ≠ [] →
      okStep (getAtParts (some (.obj fields)) q)) :
    ∃ fields',
      setValueAtPath (.obj fields) path x = .ok (.obj fields') ∧
      applyStandardPatch (.obj fields) ⟨.replace, path, some x⟩ = .ok (.obj fields') ∧
      applyStandardPatch (.obj fields) ⟨.add, path, some x⟩ = .ok (.obj fields') ∧
      (∀ h, applyCRDTOperation (.obj fields) ⟨.replace, path, x, h⟩ = .ok (.obj fields')) ∧
      getValueAtPath (.obj fields') path = some x ∧
      (∀ q r, splitPath path = q ++ r → q ≠ [] → r ≠ [] →
        ∃ fs, getAtParts (some (.obj fields')) q = some (.obj fs)) := by
  have hroot : ¬(path = "" ∨ path = "/") := by
    rintro (rfl | rfl)
    · exact hne splitPath_empty
    · exact hne splitPath_root
  obtain ⟨fields', hset, hget, hmid⟩ := setParts_creates (splitPath path) fields x hne hpre
  have hsv : setValueAtPath (.obj fields) path x = .ok (.obj fields') := by
    rw [setValueAtPath, if_neg hroot]
    exact hset
  refine ⟨fields', hsv, hsv, hsv, fun _ => hsv, ?_, hmid⟩
  rw [getValueAtPath, if_neg hroot]
  exact hget

/-- Witness for C10: writing `1` at `/a/b/c` into the empty state `{}`
creates the chain of objects and stores the leaf. -/
theorem write_creates_missing_parents_witness :
    ∃ fields',
      setValueAtPath (.obj []) "/a/b/c" (.num 1) = .ok (.obj fields') ∧
      applyStandardPatch (.obj []) ⟨.replace, "/a/b/c", some (.num 1)⟩ = .ok (.obj fields') ∧
      applyStandardPatch (.obj []) ⟨.add, "/a/b/c", some (.num 1)⟩ = .ok (.obj fields') ∧
      (∀ h, applyCRDTOperation (.obj []) ⟨.replace, "/a/b/c", .num 1, h⟩ = .ok (.obj fields')) ∧
      getValueAtPath (.obj fields') "/a/b/c" = some (.num 1) ∧
      (∀ q r, splitPath "/a/b/c" = q ++ r → q ≠ [] → r ≠ [] →
        ∃ fs, getAtParts (some (.obj fields')) q = some (.obj fs)) := by
  apply write_creates_missing_parents
  · decide
  · intro q r hqr hq hr
    have hsp : splitPath "/a/b/c" = ["a", "b", "c"] := rfl
    rw [hsp] at hqr
    rcases q with _ | ⟨q1, q⟩
    · exact absurd rfl hq
    rcases q with _ | ⟨q2, q⟩
    · injection hqr with h1 _
      subst h1
      left
      rfl
    rcases q with _ | ⟨q3, q⟩
    · injection hqr with h1 h2
      injection h2 with h2 _
      subst h1
      subst h2
      left
      rfl
    · exfalso
      rcases r with _ | ⟨r1, r'⟩
      · exact hr rfl
      · have hlen := congrArg List.length hqr
        simp [List.length_append] at hlen

/-! ## Claim C7: path-trie notification semantics -/

theorem mem_setAdd_self (l : List Nat) (x : Nat) : x ∈ setAdd l x := by
  unfold setAdd
  split
  · assumption
  · simp

theorem mem_setAdd_of_mem (l : List Nat) (x y : Nat) (h : x ∈ l) :
    x ∈ setAdd l y := by
  unfold setAdd
  split
  · exact h
  · simp [h]

theorem mem_addAll_of_mem_left (acc xs : List Nat) (x : Nat) (h : x ∈ acc) :
    x ∈ addAll acc xs := by
  induction xs generalizing acc with
  | nil => exact h
  | cons y ys ih => exact ih (setAdd acc y) (mem_setAdd_of_mem acc x y h)

theorem mem_addAll_of_mem_right (acc xs : List Nat) (x : Nat) (h : x ∈ xs) :
    x ∈ addAll acc xs := by
  induction xs generalizing acc with
  | nil => cases h
  | cons y ys ih =>
    rcases List.mem_cons.mp h with rfl | h'
    · exact mem_addAll_of_mem_left (setAdd acc x) ys x (mem_setAdd_self acc x)
    · exact ih (setAdd acc y) h'

mutual
theorem mem_collectDesc_of_mem (t : Trie) (acc : List Nat) (x : Nat)
    (h : x ∈ acc) : x ∈ collectDesc t acc :=
  match t with
  | .node _ children => mem_collectDescChildren_of_mem children acc x h

theorem mem_collectDescChildren_of_mem (children : List (Seg × Trie))
    (acc : List Nat) (x : Nat) (h : x ∈ acc) :
    x ∈ collectDescChildren children acc :=
  match children with
  | [] => h
  | (_, c) :: rest =>
    mem_collectDescChildren_of_mem rest _ x
      (mem_collectDesc_of_mem c _ x (mem_addAll_of_mem_left acc c.subsOf x h))
end

/-- A subscriber sitting in the subscriber set of a direct child is picked
up by the descendant collection. -/
theorem mem_collectDescChildren_of_child (children : List (Seg × Trie))
    (acc : List Nat) (seg : Seg) (c : Trie) (x : Nat)
    (hc : lookupChild children seg = some c) (hx : x ∈ c.subsOf) :
    x ∈ collectDescChildren children acc := by
  induction children generalizing acc with
  | nil => cases hc
  | cons kc rest ih =>
    obtain ⟨k, child⟩ := kc
    by_cases hk : k = seg
    · have : child = c := by
        have h' : lookupChild ((k, child) :: rest) seg = some child := by
          simp [lookupChild, hk]
        rw [h'] at hc
        injection hc
      subst this
      exact mem_collectDescChildren_of_mem rest _ x
        (mem_collectDesc_of_mem child _ x (mem_addAll_of_mem_right acc child.subsOf x hx))
    · have h' : lookupChild ((k, child) :: rest) seg = lookupChild rest seg := by
        simp [lookupChild, hk]
      rw [h'] at hc
      exact ih _ hc

theorem mem_collectDesc_of_child (t : Trie) (acc : List Nat) (seg : Seg)
    (c : Trie) (x : Nat) (hc : lookupChild t.childrenOf seg = some c)
    (hx : x ∈ c.subsOf) : x ∈ collectDesc t acc := by
  obtain ⟨subs, children⟩ := t
  exact mem_collectDescChildren_of_child children acc seg c x hc hx

theorem lookupChild_updateChild (children : List (Seg × Trie)) (seg : Seg)
    (c : Trie) : lookupChild (updateChild children seg c) seg = some c := by
  induction children with
  | nil => simp [updateChild, lookupChild]
  | cons kc rest ih =>
    obtain ⟨k, old⟩ := kc
    by_cases hk : k = seg
    · simp [updateChild, lookupChild, hk]
    · simp [updateChild, lookupChild, hk, ih]

theorem lookupChild_append_of_none (children : List (Seg × Trie)) (seg : Seg)
    (c : Trie) (h : lookupChild children seg = none) :
    lookupChild (children ++ [(seg, c)]) seg = some c := by
  induction children with
  | nil => simp [lookupChild]
  | cons kc rest ih =>
    obtain ⟨k, old⟩ := kc
    by_cases hk : k = seg
    · simp [lookupChild, hk] at h
    · simp only [lookupChild, List.cons_append, if_neg hk] at h ⊢
      exact ih h

theorem findNodeT_empty_getD : ∀ p : List Seg,
    (findNodeT (.node [] []) p).getD (.node [] []) = .node [] []
  | [] => rfl
  | _ :: _ => rfl

/-- The subtree found at `p` after subscribing along `p ++ q` is the
subscription pushed into the old subtree at `p` (or into a fresh empty node
when `p` was absent). -/
theorem findNodeT_subscribeT_append : ∀ (p : List Seg) (t : Trie) (q : List Seg) (s : Nat),
    findNodeT (subscribeT t (p ++ q) s) p =
      some (subscribeT ((findNodeT t p).getD (.node [] [])) q s)
  | [], t, q, s => rfl
  | seg :: p', t, q, s => by
    obtain ⟨subs, children⟩ := t
    rw [List.cons_append]
    cases hc : lookupChild children seg with
    | some c =>
      have hsub : subscribeT (.node subs children) (seg :: (p' ++ q)) s
          = .node subs (updateChild children seg (subscribeT c (p' ++ q) s)) := by
        simp only [subscribeT, hc]
      have hfind : findNodeT (Trie.node subs children) (seg :: p') = findNodeT c p' := by
        simp only [findNodeT, Trie.childrenOf, hc]
      rw [hsub, hfind]
      have hstep : findNodeT (.node subs (updateChild children seg (subscribeT c (p' ++ q) s)))
          (seg :: p') = findNodeT (subscribeT c (p' ++ q) s) p' := by
        simp only [findNodeT, Trie.childrenOf, lookupChild_updateChild]
      rw [hstep]
      exact findNodeT_subscribeT_append p' c q s
    | none =>
      have hsub : subscribeT (.node subs children) (seg :: (p' ++ q)) s
          = .node subs (children ++ [(seg, subscribeT (.node [] []) (p' ++ q) s)]) := by
        simp only [subscribeT, hc]
      have hfind : findNodeT (Trie.node subs children) (seg :: p') = none := by
        simp only [findNodeT, Trie.childrenOf, hc]
      rw [hsub, hfind]
      have hstep : findNodeT (.node subs (children ++ [(seg, subscribeT (.node [] []) (p' ++ q) s)]))
          (seg :: p') = findNodeT (subscribeT (.node [] []) (p' ++ q) s) p' := by
        simp only [findNodeT, Trie.childrenOf, lookupChild_append_of_none children seg _ hc]
      rw [hstep, findNodeT_subscribeT_append p' (.node [] []) q s, findNodeT_empty_getD]
      rfl

/-- After subscribing at `path ++ [seg]`, the node at `path` exists and has
a child at `seg` whose subscriber set contains the subscriber. -/
theorem subscribeT_child_subscribed (t : Trie) (path : List Seg) (seg : Seg)
    (s : Nat) :
    ∃ m c, findNodeT (subscribeT t (path ++ [seg]) s) path = some m ∧
      lookupChild m.childrenOf seg = some c ∧ s ∈ c.subsOf := by
  have hfind := findNodeT_subscribeT_append path t [seg] s
  obtain ⟨subs0, children0, hm0eq⟩ :
      ∃ subs0 children0,
        (findNodeT t path).getD (.node [] []) = .node subs0 children0 := by
    cases (findNodeT t path).getD (.node [] []) with
    | node a b => exact ⟨a, b, rfl⟩
  rw [hm0eq] at hfind
  cases hc : lookupChild children0 seg with
  | some c =>
    have hsub : subscribeT (.node subs0 children0) [seg] s
        = .node subs0 (updateChild children0 seg (subscribeT c [] s)) := by
      simp only [subscribeT, hc]
    refine ⟨_, subscribeT c [] s, by rw [hfind, hsub], ?_, ?_⟩
    · exact lookupChild_updateChild children0 seg _
    · obtain ⟨csubs, cchildren⟩ := c
      exact mem_setAdd_self csubs s
  | none =>
    have hsub : subscribeT (.node subs0 children0) [seg] s
        = .node subs0 (children0 ++ [(seg, subscribeT (.node [] []) [] s)]) := by
      simp only [subscribeT, hc]
    refine ⟨_, subscribeT (.node [] []) [] s, by rw [hfind, hsub], ?_, ?_⟩
    · exact lookupChild_append_of_none children0 seg _ hc
    · exact mem_setAdd_self [] s

/-- C7: a subscriber registered at `["user","profile","age"]` is notified by
a `remove` at `["user","profile"]` — whatever else the trie contains — and a
subscriber registered only at `["user","name"]` is not notified by an `add`
at `["user","age"]` (siblings are never notified). -/
theorem pathTrie_notification (t : Trie) (s : Nat) :
    s ∈ getAffectedSubscribers
        (subscribeT t [.str "user", .str "profile", .str "age"] s)
        [.str "user", .str "profile"] .remove ∧
    ¬ (0 ∈ getAffectedSubscribers
        (subscribeT (.node [] []) [.str "user", .str "name"] 0)
        [.str "user", .str "age"] .add) := by
  constructor
  · obtain ⟨m, c, hfind, hc, hs⟩ :=
      subscribeT_child_subscribed t [.str "user", .str "profile"] (.str "age") s
    show s ∈ getAffectedSubscribers
      (subscribeT t ([.str "user", .str "profile"] ++ [.str "age"]) s)
      [.str "user", .str "profile"] .remove
    unfold getAffectedSubscribers
    rw [hfind]
    simp only [reduceIte]
    exact mem_collectDesc_of_child m _ _ c s hc hs
  · decide

example : ¬ (0 ∈ getAffectedSubscribers
    (subscribeT (.node [] []) [.str "user", .str "name"] 0)
    [.str "user", .str "age"] .add) := by decide

example : 0 ∈ getAffectedSubscribers
    (subscribeT (.node [] []) [.str "user", .str "profile", .str "age"] 0)
    [.str "user", .str "profile"] .remove := by decide

/-! ## Order-preservation and round-trip of the timestamp encoding -/

/-- Big-endian numeric value of a digit list. -/
def valBE (b : Nat) (ds : List Nat) : Nat :=
  ds.foldl (fun a d => a * b + d) 0

theorem valBE_foldl_acc (b : Nat) : ∀ (ds : List Nat) (acc : Nat),
    ds.foldl (fun a d => a * b + d) acc = acc * b ^ ds.length + valBE b ds
  | [], acc => by simp [valBE]
  | d :: ds, acc => by
    show ds.foldl _ (acc * b + d) = acc * b ^ (ds.length + 1) + valBE b (d :: ds)
    rw [valBE_foldl_acc b ds (acc * b + d)]
    show _ = acc * b ^ (ds.length + 1) + ds.foldl _ (0 * b + d)
    rw [valBE_foldl_acc b ds (0 * b + d)]
    ring

theorem valBE_cons (b d : Nat) (ds : List Nat) :
    valBE b (d :: ds) = d * b ^ ds.length + valBE b ds := by
  show ds.foldl _ (0 * b + d) = _
  rw [valBE_foldl_acc b ds (0 * b + d)]
  ring

theorem valBE_lt (b : Nat) (hb : 1 ≤ b) : ∀ ds : List Nat,
    (∀ d ∈ ds, d < b) → valBE b ds < b ^ ds.length
  | [], _ => by simp [valBE]
  | d :: ds, h => by
    have hd : d < b := h d (by simp)
    have ih := valBE_lt b hb ds fun x hx => h x (List.mem_cons_of_mem d hx)
    rw [valBE_cons]
    calc d * b ^ ds.length + valBE b ds
        < d * b ^ ds.length + b ^ ds.length := by omega
      _ = (d + 1) * b ^ ds.length := by ring
      _ ≤ b * b ^ ds.length := by
          exact Nat.mul_le_mul_right _ (by omega)
      _ = b ^ (d :: ds).length := by
          rw [List.length_cons]
          ring

theorem valBE_reverse_eq_ofDigits (b : Nat) : ∀ ds : List Nat,
    valBE b ds.reverse = Nat.ofDigits b ds
  | [] => rfl
  | d :: ds => by
    rw [List.reverse_cons, Nat.ofDigits_cons]
    show (ds.reverse ++ [d]).foldl _ 0 = _
    rw [List.foldl_append]
    show (valBE b ds.reverse) * b + d = _
    rw [valBE_reverse_eq_ofDigits b ds]
    ring

theorem valBE_digitsBE (b n : Nat) : valBE b (digitsBE b n) = n := by
  unfold digitsBE
  split
  · simp [valBE]
    omega
  · rw [valBE_reverse_eq_ofDigits, Nat.ofDigits_digits]

theorem valBE_replicate_zero (b k : Nat) (ds : List Nat) :
    valBE b (List.replicate k 0 ++ ds) = valBE b ds := by
  induction k with
  | zero => rfl
  | succ k ih =>
    rw [List.replicate_succ, List.cons_append]
    show (List.replicate k 0 ++ ds).foldl _ (0 * b + 0) = _
    have : 0 * b + 0 = 0 := by ring
    rw [this]
    exact ih

theorem digitsBE_lt (b n : Nat) (hb : 1 < b) : ∀ d ∈ digitsBE b n, d < b := by
  unfold digitsBE
  split
  · intro d hd
    simp at hd
    omega
  · intro d hd
    rw [List.mem_reverse] at hd
    exact Nat.digits_lt_base hb hd

theorem digitsBE_length_le (b n w : Nat) (hb : 1 < b) (hw : 1 ≤ w)
    (hn : n < b ^ w) : (digitsBE b n).length ≤ w := by
  unfold digitsBE
  split
  · simpa using hw
  · rename_i hn0
    rw [List.length_reverse, Nat.digits_len b n hb hn0]
    have := (Nat.lt_pow_iff_log_lt hb hn0).mp hn
    omega

theorem jsDigitChar_lt_iff : ∀ x, x < 36 → ∀ y, y < 36 →
    (jsDigitChar x < jsDigitChar y ↔ x < y) := by decide

theorem jsDigitChar_inj : ∀ x, x < 36 → ∀ y, y < 36 →
    jsDigitChar x = jsDigitChar y → x = y := by decide

theorem charDigit36_jsDigitChar : ∀ d, d < 36 →
    charDigit 36 (jsDigitChar d) = some d := by decide

theorem charDigit16_jsDigitChar : ∀ d, d < 16 →
    charDigit 16 (jsDigitChar d) = some d := by decide

theorem lex_cons_iff' {α : Type} {r : α → α → Prop} {a b : α} {l₁ l₂ : List α} :
    List.Lex r (a :: l₁) (b :: l₂) ↔ r a b ∨ (a = b ∧ List.Lex r l₁ l₂) := by
  constructor
  · intro h
    cases h with
    | rel h => exact .inl h
    | cons h => exact .inr ⟨rfl, h⟩
  · rintro (h | ⟨rfl, h⟩)
    · exact .rel h
    · exact .cons h

theorem lex_map_digit_iff (b : Nat) (hb : 1 ≤ b) (hb36 : b ≤ 36) :
    ∀ xs ys : List Nat, xs.length = ys.length →
    (∀ d ∈ xs, d < b) → (∀ d ∈ ys, d < b) →
    (List.Lex (· < ·) (xs.map jsDigitChar) (ys.map jsDigitChar) ↔
      valBE b xs < valBE b ys)
  | [], [], _, _, _ => by
    simp [valBE]
  | [], y :: ys, h, _, _ => by simp at h
  | x :: xs, [], h, _, _ => by simp at h
  | x :: xs, y :: ys, h, hx, hy => by
    have hlen : xs.length = ys.length := by simpa using h
    have hxh : x < b := hx x (by simp)
    have hyh : y < b := hy y (by simp)
    have hxt : ∀ d ∈ xs, d < b := fun d hd => hx d (List.mem_cons_of_mem x hd)
    have hyt : ∀ d ∈ ys, d < b := fun d hd => hy d (List.mem_cons_of_mem y hd)
    have ih := lex_map_digit_iff b hb hb36 xs ys hlen hxt hyt
    rw [List.map_cons, List.map_cons, lex_cons_iff']
    have hc1 : (jsDigitChar x < jsDigitChar y) ↔ x < y :=
      jsDigitChar_lt_iff x (by omega) y (by omega)
    have hc2 : (jsDigitChar x = jsDigitChar y) ↔ x = y := by
      constructor
      · exact jsDigitChar_inj x (by omega) y (by omega)
      · rintro rfl; rfl
    rw [hc1, hc2, ih]
    rw [valBE_cons, valBE_cons, hlen]
    have bx := valBE_lt b hb xs hxt
    have by' := valBE_lt b hb ys hyt
    rw [hlen] at bx
    constructor
    · rintro (hlt | ⟨rfl, hv⟩)
      · have hxy : x + 1 ≤ y := hlt
        have hp : 0 < b ^ ys.length := Nat.pow_pos (by omega)
        nlinarith
      · omega
    · intro hv
      rcases Nat.lt_trichotomy x y with hlt | rfl | hgt
      · exact .inl hlt
      · exact .inr ⟨rfl, by omega⟩
      · exfalso
        have hyx : y + 1 ≤ x := hgt
        have hp : 0 < b ^ ys.length := Nat.pow_pos (by omega)
        nlinarith

theorem map_digit_inj (xs ys : List Nat)
    (hx : ∀ d ∈ xs, d < 36) (hy : ∀ d ∈ ys, d < 36)
    (h : xs.map jsDigitChar = ys.map jsDigitChar) : xs = ys := by
  induction xs generalizing ys with
  | nil => cases ys <;> simp_all
  | cons x xs ih =>
    cases ys with
    | nil => simp_all
    | cons y ys =>
      simp only [List.map_cons, List.cons.injEq] at h
      have hx0 : x = y := jsDigitChar_inj x (hx x (by simp)) y (hy y (by simp)) h.1
      have := ih ys (fun d hd => hx d (List.mem_cons_of_mem x hd))
        (fun d hd => hy d (List.mem_cons_of_mem y hd)) h.2
      simp [hx0, this]

theorem lex_append_iff : ∀ (xs ys : List Char), xs.length = ys.length →
    ∀ (r1 r2 : List Char),
    (List.Lex (· < ·) (xs ++ r1) (ys ++ r2) ↔
      List.Lex (· < ·) xs ys ∨ (xs = ys ∧ List.Lex (· < ·) r1 r2))
  | [], [], _, r1, r2 =>
    ⟨fun h => Or.inr ⟨rfl, h⟩,
     fun h => h.elim (fun h => by cases h) (fun h => h.2)⟩
  | [], y :: ys, h, _, _ => by simp at h
  | x :: xs, [], h, _, _ => by simp at h
  | x :: xs, y :: ys, h, r1, r2 => by
    have hlen : xs.length = ys.length := by simpa using h
    have ih := lex_append_iff xs ys hlen r1 r2
    simp only [List.cons_append]
    rw [lex_cons_iff', lex_cons_iff', ih, List.cons.injEq]
    tauto

/-- The zero-padded big-endian digit field of width `w`. -/
def padDigits (b w n : Nat) : List Nat :=
  List.replicate (w - (digitsBE b n).length) 0 ++ digitsBE b n

theorem padDigits_length (b w n : Nat) (hb : 1 < b) (hw : 1 ≤ w)
    (hn : n < b ^ w) : (padDigits b w n).length = w := by
  have := digitsBE_length_le b n w hb hw hn
  simp [padDigits]
  omega

theorem padDigits_lt (b w n : Nat) (hb : 1 < b) :
    ∀ d ∈ padDigits b w n, d < b := by
  intro d hd
  rcases List.mem_append.mp hd with h | h
  · rw [List.eq_of_mem_replicate h]
    omega
  · exact digitsBE_lt b n hb d h

theorem valBE_padDigits (b w n : Nat) : valBE b (padDigits b w n) = n := by
  rw [padDigits, valBE_replicate_zero, valBE_digitsBE]

theorem padStart_natToBase_data (b w n : Nat) :
    (padStart (natToBase b n) w '0').data = (padDigits b w n).map jsDigitChar := by
  have hlen : (natToBase b n).length = (digitsBE b n).length := by
    show ((digitsBE b n).map jsDigitChar).length = _
    rw [List.length_map]
  show List.replicate (w - (natToBase b n).length) '0' ++ (natToBase b n).data
      = (padDigits b w n).map jsDigitChar
  rw [padDigits, List.map_append, List.map_replicate, hlen]
  rfl

theorem asString_data (t : HLC) :
    (asString t).data = (padDigits 36 10 t.timestamp).map jsDigitChar ++
      ((padDigits 16 4 t.count).map jsDigitChar ++ t.actor.data) := by
  show ((padStart (natToBase 36 t.timestamp) 10 '0' ++
      padStart (natToBase 16 t.count) 4 '0') ++ t.actor).data = _
  rw [String.data_append, String.data_append, padStart_natToBase_data,
    padStart_natToBase_data, List.append_assoc]

/-- The total order `compare` spelt out as a lexicographic condition. -/
theorem HLC.compare_neg_iff (a b : HLC) : HLC.compare a b < 0 ↔
    (a.timestamp < b.timestamp ∨ (a.timestamp = b.timestamp ∧
      (a.count < b.count ∨ (a.count = b.count ∧ a.actor < b.actor)))) := by
  unfold HLC.compare
  split_ifs with h1 h2 h3 h4
  · constructor
    · intro h
      exact absurd h (by norm_num)
    · rintro (h | ⟨-, h | ⟨-, h⟩⟩)
      · omega
      · omega
      · exact absurd (h3 ▸ h) (lt_irrefl _)
  · constructor
    · intro _
      exact Or.inr ⟨h1, Or.inr ⟨h2, h4⟩⟩
    · intro _
      norm_num
  · constructor
    · intro h
      exact absurd h (by norm_num)
    · rintro (h | ⟨-, h | ⟨-, h⟩⟩)
      · omega
      · omega
      · exact absurd h h4
  · constructor
    · intro h
      exact Or.inr ⟨h1, Or.inl (by omega)⟩
    · rintro (h | ⟨-, h | ⟨he, -⟩⟩)
      · omega
      · omega
      · exact absurd he h2
  · constructor
    · intro h
      exact Or.inl (by omega)
    · rintro (h | ⟨he, -⟩)
      · omega
      · exact absurd he h1

/-- C6: for timestamps within the encodable ranges, the encoded strings
compare lexicographically exactly as `compare` orders the clocks. -/
theorem asString_lt_iff_compare_neg (a b : HLC)
    (ha1 : a.timestamp < 36 ^ 10) (ha2 : a.count < 16 ^ 4)
    (hb1 : b.timestamp < 36 ^ 10) (hb2 : b.count < 16 ^ 4) :
    (asString a < asString b ↔ HLC.compare a b < 0) := by
  rw [String.lt_iff_toList_lt]
  show List.Lex (· < ·) (asString a).data (asString b).data ↔ _
  rw [asString_data a, asString_data b]
  have hlents : ((padDigits 36 10 a.timestamp).map jsDigitChar).length =
      ((padDigits 36 10 b.timestamp).map jsDigitChar).length := by
    rw [List.length_map, List.length_map,
      padDigits_length 36 10 _ (by norm_num) (by norm_num) ha1,
      padDigits_length 36 10 _ (by norm_num) (by norm_num) hb1]
  have hlencnt : ((padDigits 16 4 a.count).map jsDigitChar).length =
      ((padDigits 16 4 b.count).map jsDigitChar).length := by
    rw [List.length_map, List.length_map,
      padDigits_length 16 4 _ (by norm_num) (by norm_num) ha2,
      padDigits_length 16 4 _ (by norm_num) (by norm_num) hb2]
  rw [lex_append_iff _ _ hlents, lex_append_iff _ _ hlencnt]
  have hts : List.Lex (· < ·) ((padDigits 36 10 a.timestamp).map jsDigitChar)
      ((padDigits 36 10 b.timestamp).map jsDigitChar) ↔ a.timestamp < b.timestamp := by
    rw [lex_map_digit_iff 36 (by norm_num) (by norm_num) _ _
      (by rw [padDigits_length 36 10 _ (by norm_num) (by norm_num) ha1,
        padDigits_length 36 10 _ (by norm_num) (by norm_num) hb1])
      (padDigits_lt 36 10 _ (by norm_num)) (padDigits_lt 36 10 _ (by norm_num)),
      valBE_padDigits, valBE_padDigits]
  have htseq : ((padDigits 36 10 a.timestamp).map jsDigitChar =
      (padDigits 36 10 b.timestamp).map jsDigitChar) ↔ a.timestamp = b.timestamp := by
    constructor
    · intro h
      have := map_digit_inj _ _ (padDigits_lt 36 10 _ (by norm_num))
        (padDigits_lt 36 10 _ (by norm_num)) h
      have hv := congrArg (valBE 36) this
      rwa [valBE_padDigits, valBE_padDigits] at hv
    · intro h
      rw [h]
  have hcnt : List.Lex (· < ·) ((padDigits 16 4 a.count).map jsDigitChar)
      ((padDigits 16 4 b.count).map jsDigitChar) ↔ a.count < b.count := by
    rw [lex_map_digit_iff 16 (by norm_num) (by norm_num) _ _
      (by rw [padDigits_length 16 4 _ (by norm_num) (by norm_num) ha2,
        padDigits_length 16 4 _ (by norm_num) (by norm_num) hb2])
      (padDigits_lt 16 4 _ (by norm_num)) (padDigits_lt 16 4 _ (by norm_num)),
      valBE_padDigits, valBE_padDigits]
  have hcnteq : ((padDigits 16 4 a.count).map jsDigitChar =
      (padDigits 16 4 b.count).map jsDigitChar) ↔ a.count = b.count := by
    constructor
    · intro h
      have hd := map_digit_inj _ _
        (fun d hd => lt_of_lt_of_le (padDigits_lt 16 4 _ (by norm_num) d hd) (by norm_num))
        (fun d hd => lt_of_lt_of_le (padDigits_lt 16 4 _ (by norm_num) d hd) (by norm_num)) h
      have hv := congrArg (valBE 16) hd
      rwa [valBE_padDigits, valBE_padDigits] at hv
    · intro h
      rw [h]
  have hact : List.Lex (· < ·) a.actor.data b.actor.data ↔ a.actor < b.actor := by
    rw [String.lt_iff_toList_lt]
    exact Iff.rfl
  rw [hts, htseq, hcnt, hcnteq, hact, HLC.compare_neg_iff]

/-- Witness for C6 at two concrete clocks. -/
theorem asString_lt_iff_compare_neg_witness :
    (asString { timestamp := 1, count := 0, actor := "x" } <
        asString { timestamp := 2, count := 0, actor := "x" } ↔
      HLC.compare { timestamp := 1, count := 0, actor := "x" }
        { timestamp := 2, count := 0, actor := "x" } < 0) :=
  asString_lt_iff_compare_neg _ _ (by norm_num) (by norm_num) (by norm_num)
    (by norm_num)

/-! ## Round-trip of the encoding, and the comparator on encoded strings -/

theorem takeWhile_all {α : Type} (p : α → Bool) :
    ∀ l : List α, (∀ a ∈ l, p a = true) → l.takeWhile p = l
  | [], _ => rfl
  | a :: l, h => by
    rw [List.takeWhile_cons_of_pos (h a (by simp))]
    rw [takeWhile_all p l fun x hx => h x (List.mem_cons_of_mem a hx)]

theorem foldl_congr_mem {α β : Type} : ∀ (l : List α) (f g : β → α → β) (init : β),
    (∀ acc a, a ∈ l → f acc a = g acc a) → l.foldl f init = l.foldl g init
  | [], _, _, _, _ => rfl
  | a :: l, f, g, init, h => by
    show l.foldl f (f init a) = l.foldl g (g init a)
    rw [h init a (by simp)]
    exact foldl_congr_mem l f g _ fun acc x hx => h acc x (List.mem_cons_of_mem a hx)

theorem jsParseInt_field (b w n : Nat)
    (hcd : ∀ d, d < b → charDigit b (jsDigitChar d) = some d)
    (hb : 1 < b) (hw : 1 ≤ w) (hn : n < b ^ w) :
    jsParseInt b ((padDigits b w n).map jsDigitChar) = some n := by
  have hdig := padDigits_lt b w n hb
  have hall : ∀ c ∈ (padDigits b w n).map jsDigitChar, ((charDigit b c).isSome = true) := by
    intro c hc
    obtain ⟨d, hd, rfl⟩ := List.mem_map.mp hc
    rw [hcd d (hdig d hd)]
    rfl
  unfold jsParseInt
  rw [takeWhile_all _ _ hall]
  have hlen : ((padDigits b w n).map jsDigitChar).length = w := by
    rw [List.length_map, padDigits_length b w n hb hw hn]
  have hne : ¬(((padDigits b w n).map jsDigitChar).isEmpty = true) := by
    rw [List.isEmpty_iff_length_eq_zero, hlen]
    omega
  rw [if_neg hne]
  congr 1
  rw [List.foldl_map]
  rw [foldl_congr_mem (padDigits b w n)
    (fun acc d => acc * b + (charDigit b (jsDigitChar d)).getD 0)
    (fun acc d => acc * b + d) 0
    (fun acc d hd => by
      show acc * b + (charDigit b (jsDigitChar d)).getD 0 = acc * b + d
      rw [hcd d (hdig d hd), Option.getD_some])]
  exact valBE_padDigits b w n

theorem decodeRaw_asString (t : HLC) (h1 : t.timestamp < 36 ^ 10)
    (h2 : t.count < 16 ^ 4) :
    decodeRaw (asString t) =
      { timestamp := some t.timestamp, count := some t.count, actor := t.actor } := by
  have lA : ((padDigits 36 10 t.timestamp).map jsDigitChar).length = 10 := by
    rw [List.length_map, padDigits_length 36 10 _ (by norm_num) (by norm_num) h1]
  have lB : ((padDigits 16 4 t.count).map jsDigitChar).length = 4 := by
    rw [List.length_map, padDigits_length 16 4 _ (by norm_num) (by norm_num) h2]
  unfold decodeRaw
  rw [asString_data]
  have htake : ((padDigits 36 10 t.timestamp).map jsDigitChar ++
      ((padDigits 16 4 t.count).map jsDigitChar ++ t.actor.data)).take 10 =
      (padDigits 36 10 t.timestamp).map jsDigitChar := List.take_left' lA
  have hdrop : ((padDigits 36 10 t.timestamp).map jsDigitChar ++
      ((padDigits 16 4 t.count).map jsDigitChar ++ t.actor.data)).drop 10 =
      (padDigits 16 4 t.count).map jsDigitChar ++ t.actor.data := List.drop_left' lA
  have htake4 : ((padDigits 16 4 t.count).map jsDigitChar ++ t.actor.data).take 4 =
      (padDigits 16 4 t.count).map jsDigitChar := List.take_left' lB
  have hdrop14 : ((padDigits 36 10 t.timestamp).map jsDigitChar ++
      ((padDigits 16 4 t.count).map jsDigitChar ++ t.actor.data)).drop 14 =
      t.actor.data := by
    rw [← List.append_assoc]
    refine List.drop_left' ?_
    rw [List.length_append, lA, lB]
  rw [htake, hdrop, htake4, hdrop14]
  rw [jsParseInt_field 36 10 _ charDigit36_jsDigitChar (by norm_num) (by norm_num) h1,
    jsParseInt_field 16 4 _ charDigit16_jsDigitChar (by norm_num) (by norm_num) h2]

theorem parsedHLC_asString (t : HLC) (h1 : t.timestamp < 36 ^ 10)
    (h2 : t.count < 16 ^ 4) : parsedHLC (decodeRaw (asString t)) = some t := by
  rw [decodeRaw_asString t h1 h2]
  rfl

/-- On in-range encoded timestamps the string comparator used by the patch
layer is exactly `compare`. -/
theorem cmpHLCStr_asString (x y : HLC)
    (hx1 : x.timestamp < 36 ^ 10) (hx2 : x.count < 16 ^ 4)
    (hy1 : y.timestamp < 36 ^ 10) (hy2 : y.count < 16 ^ 4) :
    cmpHLCStr (asString x) (asString y) = HLC.compare x y := by
  unfold cmpHLCStr
  rw [parsedHLC_asString x hx1 hx2, parsedHLC_asString y hy1 hy2]

/-! ## Claim C2: two increments on one path merge to their sum -/

/-- Resolving a batch of exactly two increments on one path: one increment
remains, with the summed magnitude and the later (by `compare` over decoded
strings) of the two timestamps. -/
theorem resolveConflicts_two_increments (p : String) (m1 m2 : Int)
    (hm : m1 + m2 ≠ 0) (s1 s2 : String) :
    resolveConflicts
        [.crdt { op := .increment, path := p, value := .num m1, hlc := s1 },
         .crdt { op := .increment, path := p, value := .num m2, hlc := s2 }] =
      [.crdt { op := .increment, path := p, value := .num (m1 + m2),
               hlc := if cmpHLCStr s2 s1 > 0 then s2 else s1 }] := by
  have hpo : pathOrder
      [.crdt { op := .increment, path := p, value := .num m1, hlc := s1 },
       .crdt { op := .increment, path := p, value := .num m2, hlc := s2 }] = [p] := by
    simp [pathOrder, EnhancedPatch.path]
  unfold resolveConflicts
  rw [hpo]
  rw [List.flatMap_cons, List.flatMap_nil, List.append_nil]
  have hfil : [EnhancedPatch.crdt { op := .increment, path := p, value := .num m1, hlc := s1 },
      EnhancedPatch.crdt { op := .increment, path := p, value := .num m2, hlc := s2 }].filter
        (fun q => q.path == p) =
      [.crdt { op := .increment, path := p, value := .num m1, hlc := s1 },
       .crdt { op := .increment, path := p, value := .num m2, hlc := s2 }] := by
    simp [EnhancedPatch.path]
  rw [hfil]
  show (if (2 == 1) = true then _ else _) = _
  rw [if_neg (by decide)]
  simp only [List.filterMap_cons, List.filterMap_nil, EnhancedPatch.asCRDT,
    EnhancedPatch.asStd, List.getLast?]
  unfold resolveCRDTConflicts
  simp only [List.filter_cons, List.filter_nil]
  norm_num
  simp [latestByHLC, hm]
  rw [apply_ite CRDTOperation.hlc]

/-- C2: a batch of exactly two increments on the same path with magnitudes
3 and 5 (in either order) resolves to a single increment of magnitude 8
carrying the `compare`-maximum of the two causal timestamps. -/
theorem resolve_increments_3_and_5 (p : String) (t1 t2 : HLC)
    (h11 : t1.timestamp < 36 ^ 10) (h12 : t1.count < 16 ^ 4)
    (h21 : t2.timestamp < 36 ^ 10) (h22 : t2.count < 16 ^ 4) :
    resolveConflicts
        [.crdt { op := .increment, path := p, value := .num 3, hlc := asString t1 },
         .crdt { op := .increment, path := p, value := .num 5, hlc := asString t2 }] =
      [.crdt { op := .increment, path := p, value := .num 8,
               hlc := asString (if HLC.compare t2 t1 > 0 then t2 else t1) }] ∧
    resolveConflicts
        [.crdt { op := .increment, path := p, value := .num 5, hlc := asString t1 },
         .crdt { op := .increment, path := p, value := .num 3, hlc := asString t2 }] =
      [.crdt { op := .increment, path := p, value := .num 8,
               hlc := asString (if HLC.compare t2 t1 > 0 then t2 else t1) }] := by
  have hc := cmpHLCStr_asString t2 t1 h21 h22 h11 h12
  constructor
  · rw [resolveConflicts_two_increments p 3 5 (by norm_num) (asString t1) (asString t2),
      hc, apply_ite asString]
    norm_num
  · rw [resolveConflicts_two_increments p 5 3 (by norm_num) (asString t1) (asString t2),
      hc, apply_ite asString]
    norm_num

/-- Witness for C2 at two concrete clocks. -/
theorem resolve_increments_3_and_5_witness :
    resolveConflicts
        [.crdt { op := .increment, path := "/c", value := .num 3,
                 hlc := asString { timestamp := 5, count := 0, actor := "a" } },
         .crdt { op := .increment, path := "/c", value := .num 5,
                 hlc := asString { timestamp := 7, count := 0, actor := "b" } }] =
      [.crdt { op := .increment, path := "/c", value := .num 8,
               hlc := asString (if HLC.compare { timestamp := 7, count := 0, actor := "b" }
                   { timestamp := 5, count := 0, actor := "a" } > 0
                 then { timestamp := 7, count := 0, actor := "b" }
                 else { timestamp := 5, count := 0, actor := "a" }) }] :=
  (resolve_increments_3_and_5 "/c" { timestamp := 5, count := 0, actor := "a" }
    { timestamp := 7, count := 0, actor := "b" } (by norm_num) (by norm_num)
    (by norm_num) (by norm_num)).1

/-! ## Claim C3: appends are all kept, in ascending timestamp order -/

theorem merge_congr {α : Type} (le le' : α → α → Bool) :
    ∀ (xs ys : List α),
    (∀ a ∈ xs, ∀ b ∈ ys, le a b = le' a b) →
    List.merge xs ys le = List.merge xs ys le'
  | [], ys, _ => by simp
  | x :: xs, [], _ => by simp
  | x :: xs, y :: ys, h => by
    rw [List.merge, List.merge]
    have hxy := h x (by simp) y (by simp)
    by_cases hc : le x y = true
    · rw [if_pos hc, if_pos (by rw [← hxy]; exact hc)]
      rw [merge_congr le le' xs (y :: ys)
        (fun a ha b hb => h a (List.mem_cons_of_mem x ha) b hb)]
    · rw [if_neg hc, if_neg (by rw [← hxy]; exact hc)]
      rw [merge_congr le le' (x :: xs) ys
        (fun a ha b hb => h a ha b (List.mem_cons_of_mem y hb))]
termination_by xs ys => xs.length + ys.length

theorem mergeSort_congr {α : Type} (le le' : α → α → Bool) :
    ∀ (l : List α),
    (∀ a ∈ l, ∀ b ∈ l, le a b = le' a b) →
    l.mergeSort le = l.mergeSort le'
  | [], _ => by simp
  | [a], _ => by simp
  | a :: b :: xs, h => by
    have hl1 : (List.splitInTwo ⟨a :: b :: xs, rfl⟩).1.1.length < xs.length + 1 + 1 := by
      simp [List.splitInTwo_fst]
      omega
    have hl2 : (List.splitInTwo ⟨a :: b :: xs, rfl⟩).2.1.length < xs.length + 1 + 1 := by
      simp [List.splitInTwo_snd]
      omega
    have hmem1 : ∀ x ∈ (List.splitInTwo ⟨a :: b :: xs, rfl⟩).1.1, x ∈ a :: b :: xs := by
      intro x hx
      rw [List.splitInTwo_fst] at hx
      exact List.mem_of_mem_take hx
    have hmem2 : ∀ x ∈ (List.splitInTwo ⟨a :: b :: xs, rfl⟩).2.1, x ∈ a :: b :: xs := by
      intro x hx
      rw [List.splitInTwo_snd] at hx
      exact List.mem_of_mem_drop hx
    rw [List.mergeSort, List.mergeSort]
    rw [mergeSort_congr le le' (List.splitInTwo ⟨a :: b :: xs, rfl⟩).1.1
      (fun x hx y hy => h x (hmem1 x hx) y (hmem1 y hy))]
    rw [mergeSort_congr le le' (List.splitInTwo ⟨a :: b :: xs, rfl⟩).2.1
      (fun x hx y hy => h x (hmem2 x hx) y (hmem2 y hy))]
    apply merge_congr
    intro x hx y hy
    rw [List.mem_mergeSort] at hx hy
    exact h x (hmem1 x hx) y (hmem2 y hy)
termination_by l => l.length

/-- `compare ≤ 0` spelt out as a lexicographic condition. -/
theorem HLC.compare_nonpos_iff (a b : HLC) : HLC.compare a b ≤ 0 ↔
    (a.timestamp < b.timestamp ∨ (a.timestamp = b.timestamp ∧
      (a.count < b.count ∨ (a.count = b.count ∧ a.actor ≤ b.actor)))) := by
  unfold HLC.compare
  split_ifs with h1 h2 h3 h4
  · constructor
    · intro _
      exact Or.inr ⟨h1, Or.inr ⟨h2, le_of_eq h3⟩⟩
    · intro _
      norm_num
  · constructor
    · intro _
      exact Or.inr ⟨h1, Or.inr ⟨h2, le_of_lt h4⟩⟩
    · intro _
      norm_num
  · have hgt : b.actor < a.actor := by
      rcases lt_trichotomy a.actor b.actor with h | h | h
      · exact absurd h h4
      · exact absurd h h3
      · exact h
    constructor
    · intro h
      exact absurd h (by norm_num)
    · rintro (h | ⟨-, h | ⟨-, h⟩⟩)
      · omega
      · omega
      · exact absurd hgt (not_lt_of_le h)
  · constructor
    · intro h
      exact Or.inr ⟨h1, Or.inl (by omega)⟩
    · rintro (h | ⟨-, h | ⟨he, -⟩⟩)
      · omega
      · omega
      · exact absurd he h2
  · constructor
    · intro h
      exact Or.inl (by omega)
    · rintro (h | ⟨he, -⟩)
      · omega
      · exact absurd he h1

theorem HLC.compare_trans_nonpos (a b c : HLC)
    (hab : HLC.compare a b ≤ 0) (hbc : HLC.compare b c ≤ 0) :
    HLC.compare a c ≤ 0 := by
  rw [HLC.compare_nonpos_iff] at hab hbc ⊢
  rcases hab with h1 | ⟨he1, h1⟩
  · rcases hbc with h2 | ⟨he2, -⟩
    · exact Or.inl (by omega)
    · exact Or.inl (by omega)
  · rcases hbc with h2 | ⟨he2, h2⟩
    · exact Or.inl (by omega)
    · refine Or.inr ⟨by omega, ?_⟩
      rcases h1 with h1 | ⟨hc1, h1⟩
      · rcases h2 with h2 | ⟨hc2, -⟩
        · exact Or.inl (by omega)
        · exact Or.inl (by omega)
      · rcases h2 with h2 | ⟨hc2, h2⟩
        · exact Or.inl (by omega)
        · exact Or.inr ⟨by omega, le_trans h1 h2⟩

theorem HLC.compare_total_nonpos (a b : HLC) :
    HLC.compare a b ≤ 0 ∨ HLC.compare b a ≤ 0 := by
  rw [HLC.compare_nonpos_iff, HLC.compare_nonpos_iff]
  rcases lt_trichotomy a.timestamp b.timestamp with h | h | h
  · exact Or.inl (Or.inl h)
  · rcases lt_trichotomy a.count b.count with hc | hc | hc
    · exact Or.inl (Or.inr ⟨h, Or.inl hc⟩)
    · rcases le_total a.actor b.actor with ha | ha
      · exact Or.inl (Or.inr ⟨h, Or.inr ⟨hc, ha⟩⟩)
      · exact Or.inr (Or.inr ⟨h.symm, Or.inr ⟨hc.symm, ha⟩⟩)
    · exact Or.inr (Or.inr ⟨h.symm, Or.inl hc⟩)
  · exact Or.inr (Or.inl h)

/-- The decoded clock of an operation's timestamp string (with a fixed
fallback for unparseable strings, never hit under the parseability
hypotheses below). -/
def hlcKey (o : CRDTOperation) : HLC :=
  (parsedHLC (decodeRaw o.hlc)).getD { timestamp := 0, count := 0, actor := "" }

theorem cmpHLCStr_eq_compare_key (a b : CRDTOperation)
    (ha : (parsedHLC (decodeRaw a.hlc)).isSome)
    (hb : (parsedHLC (decodeRaw b.hlc)).isSome) :
    cmpHLCStr a.hlc b.hlc = HLC.compare (hlcKey a) (hlcKey b) := by
  obtain ⟨x, hx⟩ := Option.isSome_iff_exists.mp ha
  obtain ⟨y, hy⟩ := Option.isSome_iff_exists.mp hb
  unfold cmpHLCStr hlcKey
  rw [hx, hy]
  rfl

theorem pathOrder_const_aux (p : String) : ∀ (l : List EnhancedPatch),
    (∀ q ∈ l, q.path = p) →
    l.foldl (fun acc q => if q.path ∈ acc then acc else acc ++ [q.path]) [p] = [p]
  | [], _ => rfl
  | q :: l, h => by
    have hq : q.path = p := h q (by simp)
    show List.foldl _ (if q.path ∈ [p] then [p] else [p] ++ [q.path]) l = [p]
    rw [if_pos (by rw [hq]; exact List.mem_singleton.mpr rfl)]
    exact pathOrder_const_aux p l fun x hx => h x (List.mem_cons_of_mem q hx)

theorem pathOrder_const (p : String) (l : List EnhancedPatch)
    (h : ∀ q ∈ l, q.path = p) (hne : l ≠ []) : pathOrder l = [p] := by
  cases l with
  | nil => exact absurd rfl hne
  | cons q l =>
    have hq : q.path = p := h q (by simp)
    unfold pathOrder
    show List.foldl _ (if q.path ∈ ([] : List String) then [] else [] ++ [q.path]) l = [p]
    rw [if_neg (by simp), hq]
    exact pathOrder_const_aux p l fun x hx => h x (List.mem_cons_of_mem q hx)

/-- On a nonempty batch of appends sharing one path, `resolveConflicts` is
exactly the stable sort of the batch by the timestamp comparator. -/
theorem resolveConflicts_appends (p : String) (ops : List CRDTOperation)
    (hne : ops ≠ [])
    (hop : ∀ o ∈ ops, o.op = CRDTOp.append)
    (hpath : ∀ o ∈ ops, o.path = p) :
    resolveConflicts (ops.map .crdt) = (ops.mergeSort hlcLeB).map .crdt := by
  have hpath' : ∀ q ∈ ops.map EnhancedPatch.crdt, q.path = p := by
    intro q hq
    obtain ⟨o, ho, rfl⟩ := List.mem_map.mp hq
    exact hpath o ho
  have hne' : ops.map EnhancedPatch.crdt ≠ [] := by
    intro h
    exact hne (List.map_eq_nil_iff.mp h)
  unfold resolveConflicts
  rw [pathOrder_const p _ hpath' hne']
  rw [List.flatMap_cons, List.flatMap_nil, List.append_nil]
  have hfil : (ops.map EnhancedPatch.crdt).filter (fun q => q.path == p) =
      ops.map EnhancedPatch.crdt := by
    rw [List.filter_eq_self]
    intro q hq
    exact beq_iff_eq.mpr (hpath' q hq)
  rw [hfil]
  have hcrdt : (ops.map EnhancedPatch.crdt).filterMap EnhancedPatch.asCRDT = ops := by
    rw [List.filterMap_map]
    show List.filterMap (fun o => some o) ops = ops
    exact List.filterMap_some ops
  have hstd : (ops.map EnhancedPatch.crdt).filterMap EnhancedPatch.asStd = [] := by
    rw [List.filterMap_map]
    show List.filterMap (fun _ => none) ops = []
    simp
  have hres : resolveCRDTConflicts ops = ops.mergeSort hlcLeB := by
    unfold resolveCRDTConflicts
    have hinc : ops.filter (fun o => o.op == CRDTOp.increment) = [] := by
      rw [List.filter_eq_nil_iff]
      intro o ho
      rw [hop o ho]
      decide
    have hdec : ops.filter (fun o => o.op == CRDTOp.decrement) = [] := by
      rw [List.filter_eq_nil_iff]
      intro o ho
      rw [hop o ho]
      decide
    have happ : ops.filter (fun o => o.op == CRDTOp.append) = ops := by
      rw [List.filter_eq_self]
      intro o ho
      rw [hop o ho]
      decide
    have hoth : ops.filter (fun o =>
        !(o.op == CRDTOp.increment || o.op == CRDTOp.decrement ||
          o.op == CRDTOp.append)) = [] := by
      rw [List.filter_eq_nil_iff]
      intro o ho
      rw [hop o ho]
      decide
    rw [hinc, hdec, happ, hoth]
    simp
  cases ops with
  | nil => exact absurd rfl hne
  | cons o1 tail =>
    cases tail with
    | nil =>
      simp [List.mergeSort_singleton]
    | cons o2 rest =>
      rw [if_neg (by simp)]
      rw [hcrdt, hstd]
      simp [hres]

/-- Concrete append carrying timestamp T1 (the earliest). -/
def appendT1 : CRDTOperation :=
  { op := .append, path := "/list", value := .num 1,
    hlc := asString { timestamp := 1, count := 0, actor := "a" } }

/-- Concrete append carrying timestamp T3 (the middle one). -/
def appendT3 : CRDTOperation :=
  { op := .append, path := "/list", value := .num 3,
    hlc := asString { timestamp := 2, count := 0, actor := "a" } }

/-- Concrete append carrying timestamp T2 (the latest). -/
def appendT2 : CRDTOperation :=
  { op := .append, path := "/list", value := .num 2,
    hlc := asString { timestamp := 3, count := 0, actor := "a" } }

unseal Nat.digitsAux List.merge List.mergeSort in
/-- C3: a batch of appends on one path is kept whole — the resolver output
is a permutation of the batch, sorted ascending by causal timestamp; in
particular three appends with timestamps T1 < T3 < T2 come out ordered
T1, T3, T2 from every one of the six input orders. -/
theorem resolveConflicts_keeps_appends_sorted (p : String)
    (ops : List CRDTOperation) (hne : ops ≠ [])
    (hop : ∀ o ∈ ops, o.op = CRDTOp.append)
    (hpath : ∀ o ∈ ops, o.path = p)
    (hparse : ∀ o ∈ ops, (parsedHLC (decodeRaw o.hlc)).isSome) :
    (resolveConflicts (ops.map .crdt) = (ops.mergeSort hlcLeB).map .crdt ∧
      (ops.mergeSort hlcLeB).Perm ops ∧
      (ops.mergeSort hlcLeB).Pairwise
        (fun a b => HLC.compare (hlcKey a) (hlcKey b) ≤ 0)) ∧
    (HLC.compare { timestamp := 1, count := 0, actor := "a" }
        { timestamp := 2, count := 0, actor := "a" } < 0 ∧
      HLC.compare { timestamp := 2, count := 0, actor := "a" }
        { timestamp := 3, count := 0, actor := "a" } < 0) ∧
    resolveConflicts [.crdt appendT1, .crdt appendT3, .crdt appendT2] =
      [.crdt appendT1, .crdt appendT3, .crdt appendT2] ∧
    resolveConflicts [.crdt appendT1, .crdt appendT2, .crdt appendT3] =
      [.crdt appendT1, .crdt appendT3, .crdt appendT2] ∧
    resolveConflicts [.crdt appendT3, .crdt appendT1, .crdt appendT2] =
      [.crdt appendT1, .crdt appendT3, .crdt appendT2] ∧
    resolveConflicts [.crdt appendT3, .crdt appendT2, .crdt appendT1] =
      [.crdt appendT1, .crdt appendT3, .crdt appendT2] ∧
    resolveConflicts [.crdt appendT2, .crdt appendT1, .crdt appendT3] =
      [.crdt appendT1, .crdt appendT3, .crdt appendT2] ∧
    resolveConflicts [.crdt appendT2, .crdt appendT3, .crdt appendT1] =
      [.crdt appendT1, .crdt appendT3, .crdt appendT2] := by
  refine ⟨⟨resolveConflicts_appends p ops hne hop hpath,
    List.mergeSort_perm ops hlcLeB, ?_⟩,
    ⟨by decide, by decide⟩, rfl, rfl, rfl, rfl, rfl, rfl⟩
  have hagree : ∀ a ∈ ops, ∀ b ∈ ops, hlcLeB a b =
      decide (HLC.compare (hlcKey a) (hlcKey b) ≤ 0) := by
    intro a ha b hb
    show decide (cmpHLCStr a.hlc b.hlc ≤ 0) = _
    rw [cmpHLCStr_eq_compare_key a b (hparse a ha) (hparse b hb)]
  rw [mergeSort_congr hlcLeB
    (fun a b => decide (HLC.compare (hlcKey a) (hlcKey b) ≤ 0)) ops hagree]
  have hp := @List.sorted_mergeSort CRDTOperation
    (fun a b => decide (HLC.compare (hlcKey a) (hlcKey b) ≤ 0))
    (fun a b c hab hbc => by
      rw [decide_eq_true_eq] at hab hbc ⊢
      exact HLC.compare_trans_nonpos _ _ _ hab hbc)
    (fun a b => by
      rcases HLC.compare_total_nonpos (hlcKey a) (hlcKey b) with h | h <;>
        simp [h])
    ops
  exact hp.imp fun h => decide_eq_true_eq.mp h

unseal Nat.digitsAux in
/-- Witness for C3 at the three concrete appends. -/
theorem resolveConflicts_keeps_appends_sorted_witness :
    resolveConflicts ([appendT1, appendT3, appendT2].map .crdt) =
      ([appendT1, appendT3, appendT2].mergeSort hlcLeB).map .crdt :=
  (resolveConflicts_keeps_appends_sorted "/list" [appendT1, appendT3, appendT2]
    (by simp)
    (by simp [appendT1, appendT3, appendT2])
    (by simp [appendT1, appendT3, appendT2])
    (by intro o ho
        simp only [List.mem_cons, List.not_mem_nil, or_false] at ho
        rcases ho with rfl | rfl | rfl <;> decide)).1.1
